import Mathlib

/-!
Verification of the live log distribution core of NixPyFram.

Shallow embedding of `src/app/api/logs.py` and `src/app/core/logger.py`:
the ring buffer (`log_queue`, a `deque(maxlen=1000)`), the broadcaster
(`broadcast_log`), the websocket session setup (`websocket_logs`), the
log-file listing (`get_log_files`, `get_log_files_list`) and the paginated
reader (`get_log_content`, `read_log_file`).  Python lists become Lean
lists, dicts become association lists, exceptions become `Except`.
-/

namespace NixPyFram

/-! ### Ring buffer: `log_queue = deque(maxlen=1000)` (logs.py line 20)

A `deque(maxlen=c)` appends on the right and, when full, silently drops
the leftmost element.  `broadcast_log` only ever appends
(`log_queue.append(log)`), so the queue evolves by folding `ringPush`. -/

/-- One `append` on a `deque(maxlen=cap)`: drop the oldest element first when
the deque is at capacity. -/
def ringPush (cap : Nat) (q : List α) (x : α) : List α :=
  if q.length ≥ cap then q.tail ++ [x] else q ++ [x]

/-- The contents of `log_queue` after a sequence of `broadcast_log` pushes,
starting from the empty deque. -/
def logQueueAfter (xs : List α) : List α :=
  xs.foldl (ringPush 1000) []

theorem ringPush_foldl (c : Nat) (hc : 1 ≤ c) :
    ∀ (xs q : List α), q.length ≤ c →
      xs.foldl (ringPush c) q = (q ++ xs).drop (q.length + xs.length - c) := by
  intro xs
  induction xs with
  | nil =>
    intro q hq
    simp [Nat.sub_eq_zero_of_le hq]
  | cons x xs ih =>
    intro q hq
    rw [List.foldl_cons]
    by_cases hlen : q.length ≥ c
    · have hqc : q.length = c := Nat.le_antisymm hq hlen
      obtain ⟨y, q', rfl⟩ : ∃ y q', q = y :: q' := by
        cases q with
        | nil => simp at hqc; omega
        | cons y q' => exact ⟨y, q', rfl⟩
      have hstep : ringPush c (y :: q') x = q' ++ [x] := by
        unfold ringPush
        rw [if_pos hlen]
        rfl
      rw [hstep, ih (q' ++ [x]) (by simp at hqc ⊢; omega)]
      have h1 : (q' ++ [x]).length + xs.length - c = xs.length := by
        simp at hqc ⊢; omega
      have h2 : (y :: q').length + (x :: xs).length - c = xs.length + 1 := by
        simp at hqc ⊢; omega
      rw [h1, h2]
      simp [List.append_assoc]
    · have hstep : ringPush c q x = q ++ [x] := by
        unfold ringPush
        rw [if_neg hlen]
      rw [hstep, ih (q ++ [x]) (by simp; omega)]
      have h1 : (q ++ [x]).length + xs.length - c = q.length + (x :: xs).length - c := by
        simp; omega
      rw [h1]
      simp [List.append_assoc]

/-- C3: the ring buffer `log_queue` (capacity 1000) never exceeds its
capacity, and after any sequence of pushes its contents are exactly the
min(n, 1000) most recently pushed records in arrival order (the oldest
records are the ones evicted). -/
theorem logQueue_bounded_and_recent (xs : List α) :
    (logQueueAfter xs).length ≤ 1000 ∧
      logQueueAfter xs = xs.drop (xs.length - 1000) ∧
      (logQueueAfter xs).length = min xs.length 1000 := by
  have h := ringPush_foldl 1000 (by omega) xs ([] : List α) (by simp)
  simp only [List.nil_append, List.length_nil, Nat.zero_add] at h
  refine ⟨?_, ?_, ?_⟩
  · rw [logQueueAfter, h, List.length_drop]; omega
  · rw [logQueueAfter, h]
  · rw [logQueueAfter, h, List.length_drop]; omega

/-! ### Connections and the broadcaster: `broadcast_log` (logs.py 171-190)

`active_connections` is a Python list of websocket objects; each object is
distinct (registration appends a fresh connection object).  A connection is
modelled by its identity, its `client_state` (`connected` iff it equals
`WebSocketState.CONNECTED`), and the behaviour of its `send_json` and
`close` coroutines on this broadcast (whether they raise). -/

structure WsConn where
  id : Nat
  connected : Bool
  sendFails : Bool
  closeFails : Bool
deriving DecidableEq, Repr

/-- Model of `websocket.send_json(log)`: raises iff `sendFails`. -/
def sendJson (c : WsConn) : Except String Unit :=
  if c.sendFails then .error "send_json failed" else .ok ()

/-- Model of `websocket.close()`: raises iff `closeFails`. -/
def closeWs (c : WsConn) : Except String Unit :=
  if c.closeFails then .error "close failed" else .ok ()

/-- Python `list.remove(x)`: removes the first occurrence, raises
`ValueError` when `x` is absent. -/
def pyListRemove (l : List WsConn) (c : WsConn) : Except String (List WsConn) :=
  if c ∈ l then .ok (l.erase c) else .error "ValueError: x not in list"

/-- The `for connection in active_connections.copy()` loop of
`broadcast_log`: `copy` is the snapshot being iterated, `live` the mutable
`active_connections`, `delivered` the ids that received the record so far.
The send is attempted only when `client_state == CONNECTED`; on an
exception the close error is swallowed (`except: pass`) and the connection
is removed from the live list. -/
def broadcastLoop : List WsConn → List WsConn → List Nat →
    Except String (List WsConn × List Nat)
  | [], live, delivered => .ok (live, delivered)
  | c :: rest, live, delivered =>
    match (if c.connected then sendJson c else .ok ()) with
    | .ok _ =>
      broadcastLoop rest live (if c.connected then delivered ++ [c.id] else delivered)
    | .error _ =>
      match closeWs c with
      | _ =>
        match pyListRemove live c with
        | .ok live' => broadcastLoop rest live' delivered
        | .error e => .error e

/-- Model of `broadcast_log(log)`: push to the ring buffer, then fan out over a copy
of the registry.  Returns the new queue, the new registry and the delivered
ids, or propagates an uncaught exception. -/
def broadcast_log (log : α) (queue : List α) (conns : List WsConn) :
    Except String (List α × List WsConn × List Nat) :=
  let queue' := ringPush 1000 queue log
  match broadcastLoop conns conns [] with
  | .ok (live, delivered) => .ok (queue', live, delivered)
  | .error e => .error e

/-- A connection on which this broadcast raises: it is in `CONNECTED` state
and its send fails. -/
def connFails (c : WsConn) : Bool := c.connected && c.sendFails

theorem broadcastLoop_spec :
    ∀ (copy pre : List WsConn) (delivered : List Nat),
      ((pre ++ copy).map WsConn.id).Nodup →
      broadcastLoop copy (pre ++ copy) delivered =
        .ok (pre ++ copy.filter (fun c => !connFails c),
          delivered ++ (copy.filter (fun c => c.connected && !c.sendFails)).map WsConn.id) := by
  intro copy
  induction copy with
  | nil => intro pre delivered _; simp [broadcastLoop]
  | cons c rest ih =>
    intro pre delivered hnodup
    by_cases hconn : c.connected
    · by_cases hsend : c.sendFails
      · -- connected and the send raises: close, remove, continue
        have hmem : c ∈ pre ++ c :: rest := by simp
        have hnotpre : c ∉ pre := by
          intro hpre
          have hdup := hnodup
          rw [List.map_append] at hdup
          have hdisj := (List.nodup_append.mp hdup).2.2
          exact hdisj (List.mem_map_of_mem WsConn.id hpre) (by simp)
        have herase : (pre ++ c :: rest).erase c = pre ++ rest := by
          rw [List.erase_append_right _ hnotpre, List.erase_cons_head]
        have hloop : broadcastLoop (c :: rest) (pre ++ c :: rest) delivered =
            broadcastLoop rest (pre ++ rest) delivered := by
          simp only [broadcastLoop, hconn, if_pos, sendJson, hsend, pyListRemove,
            if_pos hmem, herase]
        rw [hloop, ih pre delivered ?_]
        · simp [connFails, hconn, hsend]
        · have hsub : List.Sublist ((pre ++ rest).map WsConn.id)
              ((pre ++ c :: rest).map WsConn.id) := by
            apply List.Sublist.map
            exact List.Sublist.append_left (List.sublist_cons_self c rest) pre
          exact hnodup.sublist hsub
      · -- connected and the send succeeds: deliver and continue
        have hloop : broadcastLoop (c :: rest) (pre ++ c :: rest) delivered =
            broadcastLoop rest (pre ++ c :: rest) (delivered ++ [c.id]) := by
          simp [broadcastLoop, hconn, sendJson, hsend]
        rw [hloop]
        have hre : pre ++ c :: rest = (pre ++ [c]) ++ rest := by simp
        rw [hre, ih (pre ++ [c]) (delivered ++ [c.id]) (by rw [← hre]; exact hnodup)]
        simp [connFails, hconn, hsend]
    · -- not CONNECTED: skipped entirely
      have hloop : broadcastLoop (c :: rest) (pre ++ c :: rest) delivered =
          broadcastLoop rest (pre ++ c :: rest) delivered := by
        simp [broadcastLoop, hconn]
      rw [hloop]
      have hre : pre ++ c :: rest = (pre ++ [c]) ++ rest := by simp
      rw [hre, ih (pre ++ [c]) delivered (by rw [← hre]; exact hnodup)]
      simp [connFails, hconn]

/-- C2: `broadcast_log` never propagates an exception to its caller; a
failing registered session is removed (after a best-effort close) while
every other connected, non-failing session still receives the record, in
registry order. -/
theorem broadcast_log_isolates_failures (log : α) (queue : List α)
    (conns : List WsConn) (hids : (conns.map WsConn.id).Nodup) :
    broadcast_log log queue conns =
      .ok (ringPush 1000 queue log,
        conns.filter (fun c => !connFails c),
        (conns.filter (fun c => c.connected && !c.sendFails)).map WsConn.id) := by
  have h := broadcastLoop_spec conns [] [] (by simpa using hids)
  simp only [List.nil_append] at h
  simp [broadcast_log, h]

/-- Concrete run of C2: registry with a healthy session, a session whose
send and close both raise, a non-connected session and another healthy
session; the broadcast returns normally, drops exactly the failing session
and delivers to sessions 1 and 4. -/
theorem broadcast_log_isolates_failures_witness :
    broadcast_log "rec" ([] : List String)
        [⟨1, true, false, false⟩, ⟨2, true, true, true⟩,
         ⟨3, false, false, false⟩, ⟨4, true, false, false⟩] =
      .ok (["rec"],
        [⟨1, true, false, false⟩, ⟨3, false, false, false⟩, ⟨4, true, false, false⟩],
        [1, 4]) :=
  (broadcast_log_isolates_failures "rec" []
    [⟨1, true, false, false⟩, ⟨2, true, true, true⟩,
     ⟨3, false, false, false⟩, ⟨4, true, false, false⟩] (by decide)).trans rfl

/-! ### Decimal rendering of natural numbers

Python renders integers in decimal (`str`, `json.dumps`, `strftime`
padding).  The renderer is written with explicit fuel so that it is
structurally recursive and evaluates inside the kernel. -/

/-- Decimal digits of `n`, accumulator style; `fuel ≥ n + 1` is always
enough fuel. -/
def natCharsAux : Nat → Nat → List Char → List Char
  | 0, _, acc => acc
  | fuel + 1, n, acc =>
    if n < 10 then Nat.digitChar n :: acc
    else natCharsAux fuel (n / 10) (Nat.digitChar (n % 10) :: acc)

/-- Decimal digit characters of `n`, most significant first. -/
def natChars (n : Nat) : List Char := natCharsAux (n + 1) n []

theorem natCharsAux_append (fuel n : Nat) (acc : List Char) :
    natCharsAux fuel n acc = natCharsAux fuel n [] ++ acc := by
  induction fuel generalizing n acc with
  | zero => simp [natCharsAux]
  | succ fuel ih =>
    by_cases h : n < 10
    · simp [natCharsAux, h]
    · rw [natCharsAux, if_neg h, natCharsAux, if_neg h, ih,
        ih (n / 10) [Nat.digitChar (n % 10)]]
      simp

theorem natCharsAux_fuel_enough (fuel n : Nat) (h : n < fuel) :
    natCharsAux fuel n [] = natCharsAux (n + 1) n [] := by
  induction n using Nat.strong_induction_on generalizing fuel with
  | _ n ih =>
    match fuel, h with
    | fuel + 1, h =>
      by_cases h10 : n < 10
      · simp [natCharsAux, h10]
      · rw [natCharsAux, if_neg h10, natCharsAux, if_neg h10,
          natCharsAux_append, natCharsAux_append n]
        have hlt : n / 10 < n := Nat.div_lt_self (by omega) (by omega)
        rw [ih (n / 10) hlt fuel (by omega), ih (n / 10) hlt n (by omega)]

theorem natChars_cons_eq (n : Nat) (h10 : ¬n < 10) :
    natChars n = natChars (n / 10) ++ [Nat.digitChar (n % 10)] := by
  have hlt : n / 10 < n := Nat.div_lt_self (by omega) (by omega)
  rw [natChars, natCharsAux, if_neg h10, natCharsAux_append,
    natCharsAux_fuel_enough n (n / 10) hlt, natChars]

theorem natChars_ne_nil (n : Nat) : natChars n ≠ [] := by
  by_cases h10 : n < 10
  · simp [natChars, natCharsAux, h10]
  · rw [natChars_cons_eq n h10]; simp

theorem digitChar_isDigit {n : Nat} (h : n < 10) : (Nat.digitChar n).isDigit := by
  interval_cases n <;> decide

theorem natChars_all_digits (n : Nat) : ∀ c ∈ natChars n, c.isDigit := by
  induction n using Nat.strong_induction_on with
  | _ n ih =>
    by_cases h10 : n < 10
    · intro c hc
      simp [natChars, natCharsAux, h10] at hc
      subst hc
      exact digitChar_isDigit h10
    · rw [natChars_cons_eq n h10]
      intro c hc
      rcases List.mem_append.mp hc with h | h
      · exact ih (n / 10) (Nat.div_lt_self (by omega) (by omega)) c h
      · simp at h
        subst h
        exact digitChar_isDigit (Nat.mod_lt n (by omega))

/-- Decimal string of `n` (Python `str(n)` for `n ≥ 0`). -/
def natStr (n : Nat) : String := String.mk (natChars n)

/-! ### Websocket session setup: `websocket_logs` (logs.py 141-159)

The handler runs `accept`, then `active_connections.append(websocket)`,
then replays `log_queue` (breaking out of the replay loop on the first
send failure), then enters the heartbeat loop.  We model the setup phase
as the trace of these actions in program order. -/

inductive WsEvent (α : Type) where
  | accept : WsEvent α
  | register : WsEvent α
  | sendBacklog : α → WsEvent α
deriving DecidableEq, Repr

/-- The `for log in log_queue: try: send except: break` replay loop:
each record is attempted in queue order and the loop stops right after the
first failing send. -/
def backlogReplay (fails : α → Bool) : List α → List (WsEvent α)
  | [] => []
  | log :: rest =>
    WsEvent.sendBacklog log :: (if fails log then [] else backlogReplay fails rest)

/-- The setup phase of `websocket_logs`: accept the handshake, register in
`active_connections`, then replay the ring-buffer backlog. -/
def websocket_logs_setup (queue : List α) (fails : α → Bool) : List (WsEvent α) :=
  WsEvent.accept :: WsEvent.register :: backlogReplay fails queue

def isRegisterEv : WsEvent α → Bool
  | WsEvent.register => true
  | _ => false

def isSendEv : WsEvent α → Bool
  | WsEvent.sendBacklog _ => true
  | _ => false

theorem backlogReplay_no_fail (queue : List α) :
    backlogReplay (fun _ => false) queue = queue.map WsEvent.sendBacklog := by
  induction queue with
  | nil => simp [backlogReplay]
  | cons x xs ih => simp [backlogReplay, ih]

/-- C1 fails on the code: with one record in the ring buffer and no send
failures, the handler's trace registers the session at position 1 and only
then pushes the backlog record at position 2, so the registration is *not*
strictly after backlog replay begins — it is strictly before it. -/
theorem websocket_register_after_replay_cex :
    websocket_logs_setup ["r1"] (fun _ => false) =
        [WsEvent.accept, WsEvent.register, WsEvent.sendBacklog "r1"] ∧
      (websocket_logs_setup ["r1"] (fun _ => false)).findIdx? isRegisterEv = some 1 ∧
      (websocket_logs_setup ["r1"] (fun _ => false)).findIdx? isSendEv = some 2 ∧
      ¬(2 : Nat) < 1 := by
  refine ⟨rfl, rfl, rfl, by omega⟩

/-- C1 amended: registration into `active_connections` happens strictly
*before* backlog replay begins — the register event sits at index 1 and
every backlog send sits at a strictly larger index; with no send failure
the whole snapshot is replayed, in order, after registration. -/
theorem websocket_register_before_replay (queue : List α) (fails : α → Bool)
    (j : Nat) (e : WsEvent α)
    (hj : (websocket_logs_setup queue fails).get? j = some e)
    (hsend : isSendEv e = true) :
    (websocket_logs_setup queue fails).findIdx? isRegisterEv = some 1 ∧
      1 < j ∧
      backlogReplay (fun _ => false) queue = queue.map WsEvent.sendBacklog := by
  refine ⟨?_, ?_, ?_⟩
  · simp [websocket_logs_setup, List.findIdx?_cons, isRegisterEv]
  · match j with
    | 0 =>
      simp [websocket_logs_setup] at hj
      subst hj
      simp [isSendEv] at hsend
    | 1 =>
      simp [websocket_logs_setup] at hj
      subst hj
      simp [isSendEv] at hsend
    | j + 2 => omega
  · exact backlogReplay_no_fail queue

/-- Concrete run of the amended C1: queue `["a"]`, no failures; the send of
`"a"` sits at index 2, after the registration at index 1. -/
theorem websocket_register_before_replay_witness :
    (websocket_logs_setup ["a"] (fun _ => false)).findIdx? isRegisterEv = some 1 ∧
      (1 : Nat) < 2 ∧
      backlogReplay (fun _ => false) ["a"] = (["a"].map WsEvent.sendBacklog) :=
  websocket_register_before_replay ["a"] (fun _ => false) 2
    (WsEvent.sendBacklog "a") rfl rfl

/-! ### Websocket record construction: `websocket_handler` (logger.py 46-63)

`websocket_handler` builds the structured message from the loguru record.
Its `'time'` field uses `strftime('%Y-%m-%d %H:%mm:%S.%f')[:-3]` while the
timestamp segment of `'formatted'` uses `strftime('%Y-%m-%d %H:%M:%S.%f')[:-3]`.
In `strftime`, `%m` is the zero-padded *month* and `%M` the zero-padded
minute, so `'%mm'` renders the month followed by a literal `m`. -/

structure PyDateTime where
  year : Nat
  month : Nat
  day : Nat
  hour : Nat
  minute : Nat
  second : Nat
  microsecond : Nat
deriving DecidableEq, Repr

/-- Zero-pad the decimal rendering of `n` to width `w` (strftime fields). -/
def padNum (w n : Nat) : String :=
  String.mk (List.replicate (w - (natChars n).length) '0' ++ natChars n)

/-- Python slicing `s[:-3]`. -/
def pyDropLast3 (s : String) : String :=
  String.mk (s.toList.take (s.toList.length - 3))

/-- Rendering of `strftime('%Y-%m-%d %H:%mm:%S.%f')`: the minute position actually holds
the zero-padded month followed by a literal `m`. -/
def strftimeTimeField (t : PyDateTime) : String :=
  padNum 4 t.year ++ "-" ++ padNum 2 t.month ++ "-" ++ padNum 2 t.day ++ " " ++
    padNum 2 t.hour ++ ":" ++ padNum 2 t.month ++ "m" ++ ":" ++ padNum 2 t.second ++
    "." ++ padNum 6 t.microsecond

/-- Rendering of `strftime('%Y-%m-%d %H:%M:%S.%f')` as used for the `'formatted'` field. -/
def strftimeFormattedTs (t : PyDateTime) : String :=
  padNum 4 t.year ++ "-" ++ padNum 2 t.month ++ "-" ++ padNum 2 t.day ++ " " ++
    padNum 2 t.hour ++ ":" ++ padNum 2 t.minute ++ ":" ++ padNum 2 t.second ++
    "." ++ padNum 6 t.microsecond

/-- The `'time'` field of the broadcast message. -/
def wsTimeField (t : PyDateTime) : String := pyDropLast3 (strftimeTimeField t)

/-- The millisecond timestamp that opens the `'formatted'` field. -/
def wsFormattedTs (t : PyDateTime) : String := pyDropLast3 (strftimeFormattedTs t)

/-- Python `f'{level: <8}'` — actually the source writes `{level.name:<8}`:
left-justify in a field of width 8. -/
def padLeft8 (s : String) : String :=
  s ++ String.mk (List.replicate (8 - s.toList.length) ' ')

structure WsLogEntry where
  time : String
  level : String
  name : String
  function : String
  line : String
  message : String
  formatted : String
deriving DecidableEq, Repr

/-- The dict built by `websocket_handler` and handed to `broadcast_log`. -/
def websocket_handler_entry (t : PyDateTime)
    (level name function line message : String) : WsLogEntry :=
  { time := wsTimeField t
    level := level
    name := name
    function := function
    line := line
    message := message
    formatted := wsFormattedTs t ++ " | " ++ padLeft8 level ++ " | " ++
      name ++ ":" ++ function ++ ":" ++ line ++ " | " ++ message }

/-- C10 fails on the code: for the record timestamp
2025-01-02 03:04:05.678901 the `'time'` field renders as
`2025-01-02 03:01m:05.678` (month + literal `m` where the minute belongs)
while the `'formatted'` field starts with `2025-01-02 03:04:05.678`; the
`'time'` field is not even a prefix of `'formatted'`. -/
theorem websocket_time_field_mismatch :
    (websocket_handler_entry ⟨2025, 1, 2, 3, 4, 5, 678901⟩
        "INFO" "app" "main" "10" "hello").time = "2025-01-02 03:01m:05.678" ∧
      (websocket_handler_entry ⟨2025, 1, 2, 3, 4, 5, 678901⟩
        "INFO" "app" "main" "10" "hello").formatted =
        "2025-01-02 03:04:05.678 | INFO     | app:main:10 | hello" ∧
      (websocket_handler_entry ⟨2025, 1, 2, 3, 4, 5, 678901⟩
        "INFO" "app" "main" "10" "hello").time ≠
        wsFormattedTs ⟨2025, 1, 2, 3, 4, 5, 678901⟩ ∧
      ¬((websocket_handler_entry ⟨2025, 1, 2, 3, 4, 5, 678901⟩
        "INFO" "app" "main" "10" "hello").time.toList.isPrefixOf
          (websocket_handler_entry ⟨2025, 1, 2, 3, 4, 5, 678901⟩
            "INFO" "app" "main" "10" "hello").formatted.toList) := by
  refine ⟨rfl, rfl, by decide, by decide⟩

/-! ### The log directory on disk

A directory entry records the file name, its `st_ctime` and `st_size`, the
text lines `open(path).readlines()` yields (for a zip archive these are the
raw bytes read as text), and — for zip archives — the archive members with
their decompressed text lines. -/

structure DirFile where
  name : String
  ctime : Nat
  size : Nat
  lines : List String
  zipInner : List (String × List String)
deriving DecidableEq, Repr

/-- Python `str.endswith(suffix)`. -/
def strEndsWith (s suffix : String) : Bool :=
  suffix.toList.isSuffixOf s.toList

/-- Civil date from days since 1970-01-01 (proleptic Gregorian). -/
def civilFromDays (days : Nat) : Nat × Nat × Nat :=
  let z := days + 719468
  let era := z / 146097
  let doe := z % 146097
  let yoe := (doe - doe / 1460 + doe / 36524 - doe / 146096) / 365
  let y := yoe + era * 400
  let doy := doe - (365 * yoe + yoe / 4 - yoe / 100)
  let mp := (5 * doy + 2) / 153
  let d := doy - (153 * mp + 2) / 5 + 1
  let m := if mp < 10 then mp + 3 else mp - 9
  (if m ≤ 2 then y + 1 else y, m, d)

/-- Rendering of `datetime.fromtimestamp(t).strftime('%Y-%m-%d %H:%M:%S')`, with the
timestamp interpreted in UTC (the source uses the process-local timezone,
which is outside the model). -/
def formatCtime (t : Nat) : String :=
  let c := civilFromDays (t / 86400)
  let secs := t % 86400
  padNum 4 c.1 ++ "-" ++ padNum 2 c.2.1 ++ "-" ++ padNum 2 c.2.2 ++ " " ++
    padNum 2 (secs / 3600) ++ ":" ++ padNum 2 (secs % 3600 / 60) ++ ":" ++
    padNum 2 (secs % 60)

/-- Render `num / denom` with two decimals, rounding half to even (the
exact-rational model of Python's `f'{x:.2f}'` on the float quotient). -/
def fmt2 (num denom : Nat) : String :=
  let q := num * 100 / denom
  let r := num * 100 % denom
  let h := if denom < 2 * r then q + 1
    else if 2 * r = denom then (if q % 2 = 1 then q + 1 else q) else q
  natStr (h / 100) ++ "." ++ padNum 2 (h % 100)

/-- Model of `format_file_size` (logs.py 24-37): repeatedly divide by 1024 while the
value is at least 1024, then render with two decimals and the unit. -/
def format_file_size (size : Nat) : String :=
  if size < 1024 then fmt2 size 1 ++ " B"
  else if size < 1024 ^ 2 then fmt2 size 1024 ++ " KB"
  else if size < 1024 ^ 3 then fmt2 size (1024 ^ 2) ++ " MB"
  else if size < 1024 ^ 4 then fmt2 size (1024 ^ 3) ++ " GB"
  else fmt2 size (1024 ^ 4) ++ " TB"

/-- Model of `get_log_files` (logger.py 124-140): glob `*.log`, then `*.log.zip`,
and sort the union by creation time, newest first (Python's `sorted` with
`reverse=True` is stable, as is insertion sort). -/
def get_log_files (dir : List DirFile) : List DirFile :=
  List.insertionSort (fun a b => b.ctime ≤ a.ctime)
    (dir.filter (fun f => strEndsWith f.name ".log") ++
      dir.filter (fun f => strEndsWith f.name ".log.zip"))

structure LogFileEntry where
  ctime : String
  filename : String
  size : String
deriving DecidableEq, Repr

/-- One row of the `/logs/files` response. -/
def renderLogFile (f : DirFile) : LogFileEntry :=
  { ctime := formatCtime f.ctime, filename := f.name,
    size := format_file_size f.size }

/-- Model of `get_log_files_list` (logs.py 62-70): keep only files with positive
size and render each, preserving the newest-first order. -/
def get_log_files_list (dir : List DirFile) : List LogFileEntry :=
  ((get_log_files dir).filter (fun f => 0 < f.size)).map renderLogFile

/-- C8: the human-facing listing contains every `.log` and `.log.zip` file
of positive size (with rendered creation time and size), the underlying
enumeration is ordered newest first by creation time, and every listed row
comes from such a file — in particular every zero-byte file is excluded. -/
theorem get_log_files_list_spec (dir : List DirFile) (f : DirFile)
    (hmem : f ∈ dir)
    (hlog : strEndsWith f.name ".log" = true ∨ strEndsWith f.name ".log.zip" = true)
    (hpos : 0 < f.size) :
    renderLogFile f ∈ get_log_files_list dir ∧
      List.Sorted (fun a b => b.ctime ≤ a.ctime) (get_log_files dir) ∧
      ∀ e ∈ get_log_files_list dir, ∃ g, g ∈ dir ∧
        (strEndsWith g.name ".log" = true ∨ strEndsWith g.name ".log.zip" = true) ∧
        0 < g.size ∧ e = renderLogFile g := by
  refine ⟨?_, ?_, ?_⟩
  · apply List.mem_map_of_mem
    rw [List.mem_filter]
    refine ⟨?_, by simpa using hpos⟩
    rw [get_log_files, List.mem_insertionSort, List.mem_append]
    rcases hlog with h | h
    · exact Or.inl (List.mem_filter.mpr ⟨hmem, h⟩)
    · exact Or.inr (List.mem_filter.mpr ⟨hmem, h⟩)
  · haveI : IsTotal DirFile (fun a b => b.ctime ≤ a.ctime) :=
      ⟨fun a b => (le_total b.ctime a.ctime)⟩
    haveI : IsTrans DirFile (fun a b => b.ctime ≤ a.ctime) :=
      ⟨fun _ _ _ hab hbc => le_trans hbc hab⟩
    exact List.sorted_insertionSort _ _
  · intro e he
    rw [get_log_files_list, List.mem_map] at he
    obtain ⟨g, hg, rfl⟩ := he
    rw [List.mem_filter] at hg
    obtain ⟨hg, hgpos⟩ := hg
    rw [get_log_files, List.mem_insertionSort, List.mem_append] at hg
    refine ⟨g, ?_, ?_, by simpa using hgpos, rfl⟩
    · rcases hg with h | h <;> exact (List.mem_filter.mp h).1
    · rcases hg with h | h
      · exact Or.inl (List.mem_filter.mp h).2
      · exact Or.inr (List.mem_filter.mp h).2

/-- Concrete run of C8 on a directory holding a fresh `.log`, an older
`.log.zip` and a zero-byte `.log`. -/
theorem get_log_files_list_spec_witness :
    renderLogFile ⟨"app.log", 100, 5, [], []⟩ ∈
        get_log_files_list [⟨"app.log", 100, 5, [], []⟩,
          ⟨"old.log.zip", 50, 3, [], []⟩, ⟨"empty.log", 200, 0, [], []⟩] ∧
      List.Sorted (fun a b => b.ctime ≤ a.ctime)
        (get_log_files [⟨"app.log", 100, 5, [], []⟩,
          ⟨"old.log.zip", 50, 3, [], []⟩, ⟨"empty.log", 200, 0, [], []⟩]) ∧
      ∀ e ∈ get_log_files_list [⟨"app.log", 100, 5, [], []⟩,
          ⟨"old.log.zip", 50, 3, [], []⟩, ⟨"empty.log", 200, 0, [], []⟩],
        ∃ g, g ∈ [⟨"app.log", 100, 5, [], []⟩,
          ⟨"old.log.zip", 50, 3, [], []⟩, ⟨"empty.log", 200, 0, [], []⟩] ∧
        (strEndsWith g.name ".log" = true ∨ strEndsWith g.name ".log.zip" = true) ∧
        0 < g.size ∧ e = renderLogFile g :=
  get_log_files_list_spec _ _ (by decide) (Or.inl (by decide)) (by decide)

/-! ### JSON round-trip: `json.loads` / `json.dumps` in `get_log_content`

Each page line is passed through `json.loads` and, when that succeeds,
re-encoded with `json.dumps(obj, ensure_ascii=False)` (logs.py 115-124).
The stdlib codec is modelled on a faithful subset: numbers are integers
(no floats), strings escape and unescape `"` and `\` and reject raw
control characters (strict-mode `loads`), objects keep insertion order
with a later duplicate key overwriting the value in place (Python dict
semantics), and `dumps` uses the default separators `', '` and `': '`.
The record type is a mutual inductive so that every function on it is
structurally recursive and evaluates inside the kernel. -/

mutual

inductive Json where
  | null : Json
  | bool : Bool → Json
  | int : Int → Json
  | str : List Char → Json
  | arr : JsonList → Json
  | obj : JsonMembers → Json

inductive JsonList where
  | nil : JsonList
  | cons : Json → JsonList → JsonList

inductive JsonMembers where
  | nil : JsonMembers
  | cons : List Char → Json → JsonMembers → JsonMembers

end

/-- Decimal rendering of a Python int. -/
def intChars (n : Int) : List Char :=
  if n < 0 then '-' :: natChars n.natAbs else natChars n.natAbs

/-- String-body escaping of `json.dumps(..., ensure_ascii=False)` restricted
to the characters the model admits: only `"` and `\` need escapes. -/
def escChars : List Char → List Char
  | [] => []
  | c :: cs =>
    if c = '"' ∨ c = '\\' then '\\' :: c :: escChars cs else c :: escChars cs

mutual

/-- Model of `json.dumps(v, ensure_ascii=False)` with the default separators. -/
def dumpJ : Json → List Char
  | .null => ['n', 'u', 'l', 'l']
  | .bool b => if b then ['t', 'r', 'u', 'e'] else ['f', 'a', 'l', 's', 'e']
  | .int n => intChars n
  | .str s => '"' :: (escChars s ++ ['"'])
  | .arr .nil => ['[', ']']
  | .arr (.cons v tl) => '[' :: (dumpJ v ++ dumpL tl ++ [']'])
  | .obj .nil => ['\x7b', '\x7d']
  | .obj (.cons k v tl) => '\x7b' :: (dumpMember k v ++ dumpM tl ++ ['\x7d'])

/-- One `"key": value` pair. -/
def dumpMember (k : List Char) (v : Json) : List Char :=
  '"' :: (escChars k ++ '"' :: ':' :: ' ' :: dumpJ v)

/-- Comma-space separated continuation of an array body. -/
def dumpL : JsonList → List Char
  | .nil => []
  | .cons v tl => ',' :: ' ' :: (dumpJ v ++ dumpL tl)

/-- Comma-space separated continuation of an object body. -/
def dumpM : JsonMembers → List Char
  | .nil => []
  | .cons k v tl => ',' :: ' ' :: (dumpMember k v ++ dumpM tl)

end

/-- Whitespace skipped by the `json.loads` scanner. -/
def isWsChar (c : Char) : Bool := c = ' ' ∨ c = '\t' ∨ c = '\n' ∨ c = '\r'

def skipWs : List Char → List Char
  | [] => []
  | c :: cs => if isWsChar c then skipWs cs else c :: cs

/-- Match an expected literal continuation (`ull`, `rue`, `alse`). -/
def expectChars : List Char → List Char → Option (List Char)
  | [], cs => some cs
  | _ :: _, [] => none
  | p :: ps, c :: cs => if c = p then expectChars ps cs else none

/-- JSON string body scanner, positioned after the opening quote; strict
mode: raw control characters are rejected. -/
def parseStr : List Char → Option (List Char × List Char)
  | [] => none
  | c :: cs =>
    if c = '"' then some ([], cs)
    else if c = '\\' then
      match cs with
      | [] => none
      | e :: cs2 =>
        if e = '"' ∨ e = '\\' then
          match parseStr cs2 with
          | some (s, r) => some (e :: s, r)
          | none => none
        else none
    else if c.toNat < 32 then none
    else
      match parseStr cs with
      | some (s, r) => some (c :: s, r)
      | none => none

/-- Accumulate decimal digits. -/
def natFromDigitsAcc : Nat → List Char → Nat × List Char
  | acc, [] => (acc, [])
  | acc, c :: cs =>
    if c.isDigit then natFromDigitsAcc (10 * acc + (c.toNat - 48)) cs
    else (acc, c :: cs)

/-- Unsigned integer literal scanner. -/
def parseNum : List Char → Option (Nat × List Char)
  | [] => none
  | c :: cs => if c.isDigit then some (natFromDigitsAcc (c.toNat - 48) cs) else none

def digitHead : List Char → Bool
  | [] => false
  | c :: _ => c.isDigit

/-- Membership of a key in an object under construction. -/
def hasKeyM : JsonMembers → List Char → Bool
  | .nil, _ => false
  | .cons k _ tl, key => k == key || hasKeyM tl key

/-- Overwrite the value stored at an existing key, keeping its position. -/
def setKeyM : JsonMembers → List Char → Json → JsonMembers
  | .nil, key, v => .cons key v .nil
  | .cons k v0 tl, key, v =>
    if k == key then .cons k v tl else .cons k v0 (setKeyM tl key v)

def appendM : JsonMembers → JsonMembers → JsonMembers
  | .nil, m => m
  | .cons k v tl, m => .cons k v (appendM tl m)

/-- Assignment `d[key] = v` on a Python dict: update in place or append. -/
def upsertM (d : JsonMembers) (key : List Char) (v : Json) : JsonMembers :=
  if hasKeyM d key then setKeyM d key v else appendM d (.cons key v .nil)

def pyDictAux : JsonMembers → JsonMembers → JsonMembers
  | d, .nil => d
  | d, .cons k v tl => pyDictAux (upsertM d k v) tl

/-- Build a Python dict from parsed members in order: first occurrence
fixes the position, the last duplicate fixes the value. -/
def pyDict (ms : JsonMembers) : JsonMembers := pyDictAux .nil ms

/-- Array body continuation: either `]` at once or a non-empty element
list handed to the element scanner `elems`. -/
def parseArrBody (elems : List Char → Option (JsonList × List Char))
    (cs2 : List Char) : Option (Json × List Char) :=
  if cs2.head? = some ']' then some (.arr .nil, cs2.tail)
  else
    match elems cs2 with
    | some (l, r) => some (.arr l, r)
    | none => none

/-- Object body continuation: either the closing brace at once or a
non-empty member list handed to `membs`, then folded into a dict. -/
def parseObjBody (membs : List Char → Option (JsonMembers × List Char))
    (cs2 : List Char) : Option (Json × List Char) :=
  if cs2.head? = some '\x7d' then some (.obj .nil, cs2.tail)
  else
    match membs cs2 with
    | some (ms, r) => some (.obj (pyDict ms), r)
    | none => none

/-- Dispatch of the value scanner on the first significant character. -/
def parseValHead (elems : List Char → Option (JsonList × List Char))
    (membs : List Char → Option (JsonMembers × List Char))
    (c : Char) (cs1 : List Char) : Option (Json × List Char) :=
  if c = 'n' then
    match expectChars ['u', 'l', 'l'] cs1 with
    | some r => some (.null, r)
    | none => none
  else if c = 't' then
    match expectChars ['r', 'u', 'e'] cs1 with
    | some r => some (.bool true, r)
    | none => none
  else if c = 'f' then
    match expectChars ['a', 'l', 's', 'e'] cs1 with
    | some r => some (.bool false, r)
    | none => none
  else if c = '"' then
    match parseStr cs1 with
    | some (s, r) => some (.str s, r)
    | none => none
  else if c = '[' then parseArrBody elems (skipWs cs1)
  else if c = '\x7b' then parseObjBody membs (skipWs cs1)
  else if c = '-' then
    match parseNum cs1 with
    | some (n, r) => some (.int (-(n : Int)), r)
    | none => none
  else if c.isDigit then
    match parseNum (c :: cs1) with
    | some (n, r) => some (.int (n : Int), r)
    | none => none
  else none

/-- After one array element: a comma continues with `elems`, a bracket
closes the array. -/
def parseElemsTail (elems : List Char → Option (JsonList × List Char))
    (v : Json) (cs2 : List Char) : Option (JsonList × List Char) :=
  if cs2.head? = some ',' then
    match elems cs2.tail with
    | some (vs, r) => some (.cons v vs, r)
    | none => none
  else if cs2.head? = some ']' then some (.cons v .nil, cs2.tail)
  else none

/-- After one `key: value` member: a comma continues with `membs`, a
closing brace ends the object. -/
def parseMembersAfterVal (membs : List Char → Option (JsonMembers × List Char))
    (k : List Char) (v : Json) (cs5 : List Char) :
    Option (JsonMembers × List Char) :=
  if cs5.head? = some ',' then
    match membs cs5.tail with
    | some (ms, r) => some (.cons k v ms, r)
    | none => none
  else if cs5.head? = some '\x7d' then some (.cons k v .nil, cs5.tail)
  else none

/-- After a member key: expect `:`, then the value. -/
def parseMembersAfterKey (val : List Char → Option (Json × List Char))
    (membs : List Char → Option (JsonMembers × List Char))
    (k : List Char) (cs3w : List Char) : Option (JsonMembers × List Char) :=
  match cs3w with
  | [] => none
  | c2 :: cs3 =>
    if c2 = ':' then
      match val cs3 with
      | none => none
      | some (v, cs4) => parseMembersAfterVal membs k v (skipWs cs4)
    else none

/-- Member scanner dispatch: a member starts with a quoted key. -/
def parseMembersHead (val : List Char → Option (Json × List Char))
    (membs : List Char → Option (JsonMembers × List Char))
    (c : Char) (cs1 : List Char) : Option (JsonMembers × List Char) :=
  if c = '"' then
    match parseStr cs1 with
    | none => none
    | some (k, cs2) => parseMembersAfterKey val membs k (skipWs cs2)
  else none

mutual

/-- The `json.loads` value scanner (fuel-indexed so that the mutual
recursion is structural; every nesting step consumes one unit). -/
def parseVal : Nat → List Char → Option (Json × List Char)
  | 0, _ => none
  | fuel + 1, cs =>
    match skipWs cs with
    | [] => none
    | c :: cs1 => parseValHead (parseElems fuel) (parseMembers fuel) c cs1

/-- Comma-separated array elements followed by `]`. -/
def parseElems : Nat → List Char → Option (JsonList × List Char)
  | 0, _ => none
  | fuel + 1, cs =>
    match parseVal fuel (skipWs cs) with
    | none => none
    | some (v, cs1) => parseElemsTail (parseElems fuel) v (skipWs cs1)

/-- Comma-separated object members followed by the closing brace. -/
def parseMembers : Nat → List Char → Option (JsonMembers × List Char)
  | 0, _ => none
  | fuel + 1, cs =>
    match skipWs cs with
    | [] => none
    | c :: cs1 => parseMembersHead (parseVal fuel) (parseMembers fuel) c cs1

end

/-- Model of `json.dumps(v, ensure_ascii=False)`. -/
def jdumps (v : Json) : String := String.mk (dumpJ v)

/-- Model of `json.loads(s)`: one document, with surrounding whitespace tolerated
and the whole input consumed. -/
def jloads (s : String) : Option Json :=
  match parseVal (s.toList.length + 1) s.toList with
  | some (v, rest) => if skipWs rest = [] then some v else none
  | none => none

/-- Python `str.isspace` characters relevant to `str.strip()`. -/
def pyIsSpace (c : Char) : Bool :=
  c = ' ' ∨ c = '\t' ∨ c = '\n' ∨ c = '\r' ∨ c = '\x0b' ∨ c = '\x0c'

/-- Python `str.strip()`. -/
def pyStrip (s : String) : String :=
  String.mk (((s.toList.dropWhile pyIsSpace).reverse.dropWhile pyIsSpace).reverse)

/-- The per-line transform of `get_log_content` (logs.py 117-124): parse as
JSON and re-encode canonically, or fall back to the stripped raw line. -/
def processLine (log : String) : String :=
  match jloads log with
  | some obj => jdumps obj
  | none => pyStrip log

/-- A string body the strict scanner can produce: no control characters. -/
def strOk (s : List Char) : Bool := s.all (fun c => 32 ≤ c.toNat)

mutual

/-- Values in the image of the scanner: strings have no control
characters and object keys are distinct (dict keys). -/
def wfJ : Json → Bool
  | .null => true
  | .bool _ => true
  | .int _ => true
  | .str s => strOk s
  | .arr l => wfL l
  | .obj m => wfM m

def wfL : JsonList → Bool
  | .nil => true
  | .cons v tl => wfJ v && wfL tl

def wfM : JsonMembers → Bool
  | .nil => true
  | .cons k v tl => strOk k && !hasKeyM tl k && wfJ v && wfM tl

end

mutual

/-- Fuel sufficient for the scanner to reconstruct a value. -/
def fuelNeed : Json → Nat
  | .null => 1
  | .bool _ => 1
  | .int _ => 1
  | .str _ => 1
  | .arr l => 1 + fuelNeedL l
  | .obj m => 1 + fuelNeedM m

def fuelNeedL : JsonList → Nat
  | .nil => 1
  | .cons v tl => 1 + max (fuelNeed v) (fuelNeedL tl)

def fuelNeedM : JsonMembers → Nat
  | .nil => 1
  | .cons _ v tl => 1 + max (fuelNeed v) (fuelNeedM tl)

end

theorem fuelNeed_pos (v : Json) : 1 ≤ fuelNeed v := by
  cases v <;> simp [fuelNeed]

theorem fuelNeedL_pos (l : JsonList) : 1 ≤ fuelNeedL l := by
  cases l <;> simp [fuelNeedL]

theorem fuelNeedM_pos (m : JsonMembers) : 1 ≤ fuelNeedM m := by
  cases m <;> simp [fuelNeedM]

/-! Character-class facts used to walk the scanner's dispatch chain. -/

theorem isDigit_facts {c : Char} (h : c.isDigit = true) :
    c ≠ 'n' ∧ c ≠ 't' ∧ c ≠ 'f' ∧ c ≠ '"' ∧ c ≠ '[' ∧ c ≠ '\x7b' ∧
      c ≠ '-' ∧ c ≠ ']' ∧ c ≠ '\x7d' ∧ c ≠ ',' ∧ isWsChar c = false := by
  refine ⟨?_, ?_, ?_, ?_, ?_, ?_, ?_, ?_, ?_, ?_, ?_⟩
  all_goals first
    | (intro hc; subst hc; exact absurd h (by decide))
    | (cases hw : isWsChar c
       · rfl
       · exfalso
         have hd := hw
         simp only [isWsChar, decide_eq_true_eq] at hd
         rcases hd with rfl | rfl | rfl | rfl <;> exact absurd h (by decide))

theorem skipWs_cons_not_ws {c : Char} (cs : List Char) (h : isWsChar c = false) :
    skipWs (c :: cs) = c :: cs := by
  simp [skipWs, h]

theorem skipWs_cons_ws {c : Char} (cs : List Char) (h : isWsChar c = true) :
    skipWs (c :: cs) = skipWs cs := by
  simp [skipWs, h]

/-! Step equations for the scanners, in the shape the proofs rewrite with. -/

theorem parseVal_succ_not_ws {c : Char} (fuel : Nat) (cs1 : List Char)
    (h : isWsChar c = false) :
    parseVal (fuel + 1) (c :: cs1) =
      parseValHead (parseElems fuel) (parseMembers fuel) c cs1 := by
  rw [parseVal, skipWs_cons_not_ws _ h]

theorem parseMembers_succ_not_ws {c : Char} (fuel : Nat) (cs1 : List Char)
    (h : isWsChar c = false) :
    parseMembers (fuel + 1) (c :: cs1) =
      parseMembersHead (parseVal fuel) (parseMembers fuel) c cs1 := by
  rw [parseMembers, skipWs_cons_not_ws _ h]

theorem parseStr_quote (cs : List Char) : parseStr ('"' :: cs) = some ([], cs) := by
  rw [parseStr.eq_def]
  simp

theorem parseStr_escape (e : Char) (cs2 : List Char) :
    parseStr ('\\' :: e :: cs2) =
      if e = '"' ∨ e = '\\' then
        match parseStr cs2 with
        | some (s, r) => some (e :: s, r)
        | none => none
      else none := by
  rw [parseStr.eq_def]
  simp

theorem parseStr_plain {c : Char} (cs : List Char) (h1 : ¬c = '"')
    (h2 : ¬c = '\\') (h3 : ¬c.toNat < 32) :
    parseStr (c :: cs) =
      match parseStr cs with
      | some (s, r) => some (c :: s, r)
      | none => none := by
  rw [parseStr.eq_def]
  simp only [if_neg h1, if_neg h2, if_neg h3]

/-! The string scanner undoes the `dumps` escaping. -/

theorem parseStr_escChars (s : List Char) (rest : List Char)
    (h : strOk s = true) :
    parseStr (escChars s ++ '"' :: rest) = some (s, rest) := by
  induction s with
  | nil =>
    rw [escChars, List.nil_append, parseStr_quote]
  | cons c cs ih =>
    rw [strOk, List.all_cons, Bool.and_eq_true] at h
    obtain ⟨hc, hcs⟩ := h
    by_cases hesc : c = '"' ∨ c = '\\'
    · rw [escChars, if_pos hesc, List.cons_append, List.cons_append,
        parseStr_escape]
      simp only [if_pos hesc, ih hcs]
    · rw [escChars, if_neg hesc]
      push_neg at hesc
      rw [List.cons_append,
        parseStr_plain _ hesc.1 hesc.2 (by simp at hc; omega)]
      simp only [ih hcs]

/-! The number scanner reads back the decimal rendering. -/

theorem digitChar_toNat {n : Nat} (h : n < 10) :
    (Nat.digitChar n).toNat = n + 48 := by
  interval_cases n <;> decide

theorem natFromDigitsAcc_spec (ds : List Char) (rest : List Char) (acc : Nat)
    (hds : ∀ c ∈ ds, c.isDigit = true) (hrest : digitHead rest = false) :
    natFromDigitsAcc acc (ds ++ rest) =
      (ds.foldl (fun a c => 10 * a + (c.toNat - 48)) acc, rest) := by
  induction ds generalizing acc with
  | nil =>
    cases rest with
    | nil => simp [natFromDigitsAcc]
    | cons c cs =>
      rw [digitHead] at hrest
      simp [natFromDigitsAcc, hrest]
  | cons d ds ih =>
    have hd : d.isDigit = true := hds d (by simp)
    rw [List.cons_append, natFromDigitsAcc, if_pos hd, List.foldl_cons,
      ih _ (fun c hc => hds c (by simp [hc]))]

theorem natChars_foldl (n : Nat) :
    (natChars n).foldl (fun a c => 10 * a + (c.toNat - 48)) 0 = n := by
  induction n using Nat.strong_induction_on with
  | _ n ih =>
    by_cases h10 : n < 10
    · simp [natChars, natCharsAux, h10, digitChar_toNat h10]
    · rw [natChars_cons_eq n h10, List.foldl_append]
      have hrec : (natChars (n / 10)).foldl (fun a c => 10 * a + (c.toNat - 48)) 0 =
          n / 10 := ih (n / 10) (Nat.div_lt_self (by omega) (by omega))
      rw [hrec, List.foldl_cons, List.foldl_nil,
        digitChar_toNat (Nat.mod_lt n (by omega))]
      omega

theorem parseNum_natChars (n : Nat) (rest : List Char)
    (hrest : digitHead rest = false) :
    parseNum (natChars n ++ rest) = some (n, rest) := by
  obtain ⟨c, cs, hcons⟩ : ∃ c cs, natChars n = c :: cs := by
    cases hn : natChars n with
    | nil => exact absurd hn (natChars_ne_nil n)
    | cons c cs => exact ⟨c, cs, rfl⟩
  have hc : c.isDigit = true := natChars_all_digits n c (by rw [hcons]; simp)
  have hcs : ∀ x ∈ cs, x.isDigit = true := by
    intro x hx
    exact natChars_all_digits n x (by rw [hcons]; simp [hx])
  rw [hcons, List.cons_append, parseNum, if_pos hc,
    natFromDigitsAcc_spec cs rest _ hcs hrest]
  have hfold := natChars_foldl n
  rw [hcons, List.foldl_cons] at hfold
  have h0 : 10 * 0 + (c.toNat - 48) = c.toNat - 48 := by omega
  rw [h0] at hfold
  rw [hfold]

theorem parseVal_int (fuel : Nat) (n : Int) (rest : List Char)
    (hrest : digitHead rest = false) :
    parseVal (fuel + 1) (intChars n ++ rest) = some (.int n, rest) := by
  by_cases hneg : n < 0
  · rw [intChars, if_pos hneg, List.cons_append,
      parseVal_succ_not_ws fuel _ (by decide), parseValHead]
    rw [if_neg (by decide), if_neg (by decide), if_neg (by decide),
      if_neg (by decide), if_neg (by decide), if_neg (by decide), if_pos rfl,
      parseNum_natChars n.natAbs rest hrest]
    have hincl : -(n.natAbs : Int) = n := by omega
    simp only [hincl]
  · rw [intChars, if_neg hneg]
    obtain ⟨c, cs, hcons⟩ : ∃ c cs, natChars n.natAbs = c :: cs := by
      cases hn : natChars n.natAbs with
      | nil => exact absurd hn (natChars_ne_nil _)
      | cons c cs => exact ⟨c, cs, rfl⟩
    have hc : c.isDigit = true := natChars_all_digits _ c (by rw [hcons]; simp)
    obtain ⟨h1, h2, h3, h4, h5, h6, h7, _, _, _, hw⟩ := isDigit_facts hc
    rw [hcons, List.cons_append, parseVal_succ_not_ws fuel _ hw, parseValHead]
    rw [if_neg h1, if_neg h2, if_neg h3, if_neg h4, if_neg h5, if_neg h6,
      if_neg h7, if_pos hc, ← List.cons_append, ← hcons,
      parseNum_natChars n.natAbs rest hrest]
    have hincl : (n.natAbs : Int) = n := by omega
    simp only [hincl]

/-! Every dump starts with a significant character that closes nothing. -/

theorem dumpJ_head (v : Json) :
    ∃ c cs, dumpJ v = c :: cs ∧ isWsChar c = false ∧ c ≠ ']' ∧ c ≠ '\x7d' := by
  cases v with
  | null =>
    exact ⟨'n', ['u', 'l', 'l'], by simp [dumpJ], by decide, by decide, by decide⟩
  | bool b =>
    cases b with
    | true =>
      exact ⟨'t', ['r', 'u', 'e'], by simp [dumpJ], by decide, by decide, by decide⟩
    | false =>
      exact ⟨'f', ['a', 'l', 's', 'e'], by simp [dumpJ], by decide, by decide,
        by decide⟩
  | int n =>
    by_cases hneg : n < 0
    · exact ⟨'-', natChars n.natAbs, by simp [dumpJ, intChars, hneg], by decide,
        by decide, by decide⟩
    · obtain ⟨c, cs, hcons⟩ : ∃ c cs, natChars n.natAbs = c :: cs := by
        cases hn : natChars n.natAbs with
        | nil => exact absurd hn (natChars_ne_nil _)
        | cons c cs => exact ⟨c, cs, rfl⟩
      have hc : c.isDigit = true := natChars_all_digits _ c (by rw [hcons]; simp)
      obtain ⟨_, _, _, _, _, _, _, hr, hb, _, hw⟩ := isDigit_facts hc
      exact ⟨c, cs, by simp [dumpJ, intChars, hneg, hcons], hw, hr, hb⟩
  | str s =>
    exact ⟨'"', escChars s ++ ['"'], by simp [dumpJ], by decide, by decide,
      by decide⟩
  | arr l =>
    cases l with
    | nil => exact ⟨'[', [']'], by simp [dumpJ], by decide, by decide, by decide⟩
    | cons v tl =>
      exact ⟨'[', dumpJ v ++ (dumpL tl ++ [']']), by simp [dumpJ], by decide,
        by decide, by decide⟩
  | obj m =>
    cases m with
    | nil =>
      exact ⟨'\x7b', ['\x7d'], by simp [dumpJ], by decide, by decide, by decide⟩
    | cons k v tl =>
      exact ⟨'\x7b', dumpMember k v ++ (dumpM tl ++ ['\x7d']), by simp [dumpJ],
        by decide, by decide, by decide⟩

/-! On raw member lists without duplicate keys, the dict fold is the
identity (the scanner output for a dumped object is the object itself). -/

theorem appendM_nilR : ∀ (d : JsonMembers), appendM d .nil = d
  | .nil => rfl
  | .cons k v tl => by rw [appendM, appendM_nilR tl]

theorem appendM_assoc :
    ∀ (a : JsonMembers) (b c : JsonMembers),
      appendM (appendM a b) c = appendM a (appendM b c)
  | .nil, _, _ => rfl
  | .cons k v tl, b, c => by rw [appendM, appendM, appendM, appendM_assoc tl]

theorem hasKeyM_appendM :
    ∀ (d : JsonMembers) (e : JsonMembers) (key : List Char),
      hasKeyM (appendM d e) key = (hasKeyM d key || hasKeyM e key)
  | .nil, e, key => by simp [appendM, hasKeyM]
  | .cons k v tl, e, key => by
    rw [appendM, hasKeyM, hasKeyM, hasKeyM_appendM tl, Bool.or_assoc]

theorem upsertM_new {d : JsonMembers} {key : List Char} (v : Json)
    (h : hasKeyM d key = false) :
    upsertM d key v = appendM d (.cons key v .nil) := by
  rw [upsertM, if_neg (by simp [h])]

theorem pyDictAux_disjoint :
    ∀ (ms d : JsonMembers), wfM ms = true →
      (∀ key, hasKeyM ms key = true → hasKeyM d key = false) →
      pyDictAux d ms = appendM d ms
  | .nil, d, _, _ => by rw [pyDictAux, appendM_nilR]
  | .cons k v tl, d, hwf, hdisj => by
    rw [wfM] at hwf
    simp only [Bool.and_eq_true, Bool.not_eq_true'] at hwf
    obtain ⟨⟨⟨hstr, hnk⟩, hv⟩, htl⟩ := hwf
    have hdk : hasKeyM d k = false := hdisj k (by simp [hasKeyM])
    rw [pyDictAux, upsertM_new v hdk,
      pyDictAux_disjoint tl (appendM d (.cons k v .nil)) htl ?_, appendM_assoc]
    · rw [appendM, appendM]
    · intro k2 hk2
      rw [hasKeyM_appendM]
      have hd2 : hasKeyM d k2 = false := hdisj k2 (by simp [hasKeyM, hk2])
      have hkk : (k == k2) = false := by
        cases hb : (k == k2)
        · rfl
        · exfalso
          have hkeq : k = k2 := eq_of_beq hb
          subst hkeq
          rw [hk2] at hnk
          exact absurd hnk (by simp)
      simp [hasKeyM, hd2, hkk]

theorem pyDict_wf {ms : JsonMembers} (h : wfM ms = true) : pyDict ms = ms := by
  rw [pyDict, pyDictAux_disjoint ms .nil h (fun key _ => by rw [hasKeyM])]
  rfl

/-! A leading space is transparent to every scanner entry point. -/

theorem parseVal_cons_ws {c : Char} (fuel : Nat) (cs : List Char)
    (h : isWsChar c = true) : parseVal fuel (c :: cs) = parseVal fuel cs := by
  cases fuel with
  | zero => rfl
  | succ fuel => rw [parseVal, parseVal, skipWs_cons_ws _ h]

theorem parseElems_cons_ws {c : Char} (fuel : Nat) (cs : List Char)
    (h : isWsChar c = true) : parseElems fuel (c :: cs) = parseElems fuel cs := by
  cases fuel with
  | zero => rfl
  | succ fuel => rw [parseElems, parseElems, skipWs_cons_ws _ h]

theorem parseMembers_cons_ws {c : Char} (fuel : Nat) (cs : List Char)
    (h : isWsChar c = true) :
    parseMembers fuel (c :: cs) = parseMembers fuel cs := by
  cases fuel with
  | zero => rfl
  | succ fuel => rw [parseMembers, parseMembers, skipWs_cons_ws _ h]

/-- The scanner reconstructs every well-formed dumped value exactly,
leaving the trailing input untouched (stated together with the matching
facts for array elements and object members, by induction on fuel). -/
theorem parse_dump (fuel : Nat) :
    (∀ v rest, fuelNeed v ≤ fuel → wfJ v = true → digitHead rest = false →
      parseVal fuel (dumpJ v ++ rest) = some (v, rest)) ∧
    (∀ v tl rest, fuelNeedL (.cons v tl) ≤ fuel → wfJ v = true → wfL tl = true →
      parseElems fuel (dumpJ v ++ (dumpL tl ++ ']' :: rest)) =
        some (.cons v tl, rest)) ∧
    (∀ k v tl rest, fuelNeedM (.cons k v tl) ≤ fuel → strOk k = true →
      wfJ v = true → wfM tl = true →
      parseMembers fuel (dumpMember k v ++ (dumpM tl ++ '\x7d' :: rest)) =
        some (.cons k v tl, rest)) := by
  induction fuel with
  | zero =>
    refine ⟨fun v _ hf _ _ => ?_, fun v tl _ hf _ _ => ?_,
      fun k v tl _ hf _ _ _ => ?_⟩
    · exact absurd hf (by have := fuelNeed_pos v; omega)
    · exact absurd hf (by have := fuelNeedL_pos (.cons v tl); omega)
    · exact absurd hf (by have := fuelNeedM_pos (.cons k v tl); omega)
  | succ fuel ih =>
    obtain ⟨ihV, ihE, ihM⟩ := ih
    refine ⟨?_, ?_, ?_⟩
    · -- values
      intro v rest hfuel hwf hrest
      cases v with
      | null =>
        simp only [dumpJ, List.cons_append, List.nil_append]
        rw [parseVal_succ_not_ws fuel _ (by decide)]
        simp [parseValHead, expectChars]
      | bool b =>
        cases b with
        | true =>
          rw [show dumpJ (.bool true) = ['t', 'r', 'u', 'e'] by simp [dumpJ]]
          simp only [List.cons_append, List.nil_append]
          rw [parseVal_succ_not_ws fuel _ (by decide)]
          simp [parseValHead, expectChars]
        | false =>
          rw [show dumpJ (.bool false) = ['f', 'a', 'l', 's', 'e'] by
            simp [dumpJ]]
          simp only [List.cons_append, List.nil_append]
          rw [parseVal_succ_not_ws fuel _ (by decide)]
          simp [parseValHead, expectChars]
      | int n =>
        simp only [dumpJ]
        exact parseVal_int fuel n rest hrest
      | str s =>
        simp only [wfJ] at hwf
        simp only [dumpJ, List.cons_append, List.append_assoc, List.nil_append]
        rw [parseVal_succ_not_ws fuel _ (by decide), parseValHead]
        rw [if_neg (by decide), if_neg (by decide), if_neg (by decide),
          if_pos rfl, parseStr_escChars s rest hwf]
      | arr l =>
        cases l with
        | nil =>
          simp only [dumpJ, List.cons_append, List.nil_append]
          rw [parseVal_succ_not_ws fuel _ (by decide), parseValHead]
          rw [if_neg (by decide), if_neg (by decide), if_neg (by decide),
            if_neg (by decide), if_pos rfl, skipWs_cons_not_ws _ (by decide),
            parseArrBody]
          simp
        | cons v tl =>
          simp only [wfJ, wfL, Bool.and_eq_true] at hwf
          obtain ⟨hv, htl⟩ := hwf
          simp only [fuelNeed] at hfuel
          simp only [dumpJ, List.cons_append, List.append_assoc, List.nil_append]
          rw [parseVal_succ_not_ws fuel _ (by decide), parseValHead]
          rw [if_neg (by decide), if_neg (by decide), if_neg (by decide),
            if_neg (by decide), if_pos rfl]
          obtain ⟨c, cs, hd, hw, hrb, _⟩ := dumpJ_head v
          rw [show skipWs (dumpJ v ++ (dumpL tl ++ ']' :: rest)) =
              dumpJ v ++ (dumpL tl ++ ']' :: rest) by
            rw [hd, List.cons_append, skipWs_cons_not_ws _ hw]]
          rw [parseArrBody, if_neg (by rw [hd, List.cons_append]; simp [hrb])]
          rw [ihE v tl rest (by omega) hv htl]
      | obj m =>
        cases m with
        | nil =>
          simp only [dumpJ, List.cons_append, List.nil_append]
          rw [parseVal_succ_not_ws fuel _ (by decide), parseValHead]
          rw [if_neg (by decide), if_neg (by decide), if_neg (by decide),
            if_neg (by decide), if_neg (by decide), if_pos rfl,
            skipWs_cons_not_ws _ (by decide), parseObjBody]
          simp
        | cons k v tl =>
          simp only [wfJ] at hwf
          have hwf2 := hwf
          simp only [wfM, Bool.and_eq_true, Bool.not_eq_true'] at hwf2
          obtain ⟨⟨⟨hk, _⟩, hv⟩, htl⟩ := hwf2
          simp only [fuelNeed] at hfuel
          simp only [dumpJ, List.cons_append, List.append_assoc, List.nil_append]
          rw [parseVal_succ_not_ws fuel _ (by decide), parseValHead]
          rw [if_neg (by decide), if_neg (by decide), if_neg (by decide),
            if_neg (by decide), if_neg (by decide), if_pos rfl]
          rw [show skipWs (dumpMember k v ++ (dumpM tl ++ '\x7d' :: rest)) =
              dumpMember k v ++ (dumpM tl ++ '\x7d' :: rest) by
            rw [dumpMember, List.cons_append, skipWs_cons_not_ws _ (by decide)]]
          rw [parseObjBody,
            if_neg (by rw [dumpMember, List.cons_append]; simp)]
          rw [ihM k v tl rest (by omega) hk hv htl]
          simp only [pyDict_wf hwf]
    · -- array elements
      intro v tl rest hfuel hv htl
      simp only [fuelNeedL] at hfuel
      obtain ⟨c, cs, hd, hw, _, _⟩ := dumpJ_head v
      rw [parseElems]
      rw [show skipWs (dumpJ v ++ (dumpL tl ++ ']' :: rest)) =
          dumpJ v ++ (dumpL tl ++ ']' :: rest) by
        rw [hd, List.cons_append, skipWs_cons_not_ws _ hw]]
      have hdh : digitHead (dumpL tl ++ ']' :: rest) = false := by
        cases tl with
        | nil => simp only [dumpL, List.nil_append]; rfl
        | cons v2 tl2 => simp only [dumpL, List.cons_append]; rfl
      rw [ihV v (dumpL tl ++ ']' :: rest) (by omega) hv hdh]
      cases tl with
      | nil =>
        simp only [dumpL, List.nil_append]
        rw [skipWs_cons_not_ws _ (by decide), parseElemsTail]
        simp
      | cons v2 tl2 =>
        simp only [wfL, Bool.and_eq_true] at htl
        obtain ⟨hv2, htl2⟩ := htl
        simp only [dumpL, List.cons_append, List.append_assoc]
        rw [skipWs_cons_not_ws _ (by decide), parseElemsTail,
          if_pos (by simp)]
        simp only [List.tail_cons]
        rw [parseElems_cons_ws fuel _ (by decide),
          ihE v2 tl2 rest (by omega) hv2 htl2]
    · -- object members
      intro k v tl rest hfuel hk hv htl
      simp only [fuelNeedM] at hfuel
      rw [dumpMember]
      simp only [List.cons_append, List.append_assoc, List.nil_append]
      rw [parseMembers_succ_not_ws fuel _ (by decide), parseMembersHead,
        if_pos rfl, parseStr_escChars k _ hk]
      simp only []
      rw [show skipWs (':' :: ' ' :: (dumpJ v ++ (dumpM tl ++ '\x7d' :: rest))) =
          ':' :: ' ' :: (dumpJ v ++ (dumpM tl ++ '\x7d' :: rest)) from
        skipWs_cons_not_ws _ (by decide)]
      rw [parseMembersAfterKey, if_pos rfl,
        parseVal_cons_ws fuel _ (by decide)]
      have hdh : digitHead (dumpM tl ++ '\x7d' :: rest) = false := by
        cases tl with
        | nil => simp only [dumpM, List.nil_append]; rfl
        | cons k2 v2 tl2 => simp only [dumpM, List.cons_append]; rfl
      rw [ihV v (dumpM tl ++ '\x7d' :: rest) (by omega) hv hdh]
      cases tl with
      | nil =>
        simp only [dumpM, List.nil_append]
        rw [skipWs_cons_not_ws _ (by decide), parseMembersAfterVal]
        simp
      | cons k2 v2 tl2 =>
        simp only [wfM, Bool.and_eq_true, Bool.not_eq_true'] at htl
        obtain ⟨⟨⟨hk2, _⟩, hv2⟩, htl2⟩ := htl
        simp only [dumpM, List.cons_append, List.append_assoc]
        rw [skipWs_cons_not_ws _ (by decide), parseMembersAfterVal,
          if_pos (by simp)]
        simp only [List.tail_cons]
        rw [parseMembers_cons_ws fuel _ (by decide),
          ihM k2 v2 tl2 rest (by omega) hk2 hv2 htl2]

/-! ### Every scanner output is well-formed

The scanner only builds strings without control characters, and the dict
fold only builds member lists with distinct keys. -/

/-- Raw member lists as returned by the member scanner: keys and values
are well-formed, but keys may repeat (the dict fold removes repeats). -/
def wfMRaw : JsonMembers → Bool
  | .nil => true
  | .cons k v tl => strOk k && wfJ v && wfMRaw tl

theorem hasKeyM_setKeyM :
    ∀ (d : JsonMembers) (k : List Char) (v : Json), hasKeyM d k = true →
      ∀ key, hasKeyM (setKeyM d k v) key = hasKeyM d key
  | .nil, k, v, h, key => by rw [hasKeyM] at h; cases h
  | .cons k0 v0 tl, k, v, h, key => by
    by_cases hk : (k0 == k) = true
    · rw [setKeyM, if_pos hk, hasKeyM, hasKeyM]
    · rw [hasKeyM] at h
      simp only [hk, Bool.false_or] at h
      rw [setKeyM, if_neg (by simp [hk]), hasKeyM, hasKeyM,
        hasKeyM_setKeyM tl k v h key]

theorem setKeyM_wf :
    ∀ (d : JsonMembers) (k : List Char) (v : Json), hasKeyM d k = true →
      wfM d = true → wfJ v = true → wfM (setKeyM d k v) = true
  | .nil, k, v, h, _, _ => by rw [hasKeyM] at h; cases h
  | .cons k0 v0 tl, k, v, h, hwf, hv => by
    rw [wfM] at hwf
    simp only [Bool.and_eq_true, Bool.not_eq_true'] at hwf
    obtain ⟨⟨⟨hk0, hnk⟩, hv0⟩, htl⟩ := hwf
    by_cases hk : (k0 == k) = true
    · rw [setKeyM, if_pos hk, wfM]
      simp [hk0, hnk, hv, htl]
    · rw [hasKeyM] at h
      simp only [hk, Bool.false_or] at h
      rw [setKeyM, if_neg (by simp [hk]), wfM]
      simp [hk0, hasKeyM_setKeyM tl k v h k0, hnk, hv0,
        setKeyM_wf tl k v h htl hv]

theorem wfM_append_single :
    ∀ (d : JsonMembers) (k : List Char) (v : Json), hasKeyM d k = false →
      wfM d = true → strOk k = true → wfJ v = true →
      wfM (appendM d (.cons k v .nil)) = true
  | .nil, k, v, _, _, hk, hv => by
    rw [appendM, wfM]
    simp [hk, hv, hasKeyM, wfM]
  | .cons k0 v0 tl, k, v, h, hwf, hk, hv => by
    rw [wfM] at hwf
    simp only [Bool.and_eq_true, Bool.not_eq_true'] at hwf
    obtain ⟨⟨⟨hk0, hnk⟩, hv0⟩, htl⟩ := hwf
    rw [hasKeyM] at h
    simp only [Bool.or_eq_false_iff] at h
    obtain ⟨hne, htlk⟩ := h
    rw [appendM, wfM]
    have hkeys : hasKeyM (appendM tl (.cons k v .nil)) k0 = false := by
      rw [hasKeyM_appendM, hnk, hasKeyM, hasKeyM]
      simp only [Bool.or_false, Bool.false_or]
      cases hb : (k == k0)
      · rfl
      · exact absurd (eq_of_beq hb ▸ hne) (by simp [BEq.refl])
    simp [hk0, hkeys, hv0, wfM_append_single tl k v htlk htl hk hv]

theorem upsertM_wf {d : JsonMembers} {k : List Char} {v : Json}
    (hwf : wfM d = true) (hk : strOk k = true) (hv : wfJ v = true) :
    wfM (upsertM d k v) = true := by
  rw [upsertM]
  cases hhas : hasKeyM d k
  · rw [if_neg (by simp)]
    exact wfM_append_single d k v hhas hwf hk hv
  · rw [if_pos (by simp)]
    exact setKeyM_wf d k v hhas hwf hv

theorem pyDictAux_wf :
    ∀ (ms d : JsonMembers), wfMRaw ms = true → wfM d = true →
      wfM (pyDictAux d ms) = true
  | .nil, d, _, hd => by rw [pyDictAux]; exact hd
  | .cons k v tl, d, hraw, hd => by
    rw [wfMRaw] at hraw
    simp only [Bool.and_eq_true] at hraw
    obtain ⟨⟨hk, hv⟩, htl⟩ := hraw
    rw [pyDictAux]
    exact pyDictAux_wf tl _ htl (upsertM_wf hd hk hv)

/-- The dict fold turns any raw member list into a well-formed object. -/
theorem pyDict_raw_wf {ms : JsonMembers} (h : wfMRaw ms = true) :
    wfM (pyDict ms) = true :=
  pyDictAux_wf ms .nil h (by rw [wfM])

/-- Every string body the scanner accepts is free of control characters. -/
theorem parseStr_wf :
    ∀ (cs : List Char) (s rest : List Char),
      parseStr cs = some (s, rest) → strOk s = true
  | [], s, rest, h => by rw [parseStr] at h; cases h
  | c :: cs, s, rest, h => by
    by_cases h1 : c = '"'
    · subst h1
      rw [parseStr_quote] at h
      simp only [Option.some.injEq, Prod.mk.injEq] at h
      obtain ⟨hs, _⟩ := h
      rw [← hs, strOk]
      rfl
    · by_cases h2 : c = '\\'
      · subst h2
        match cs, h with
        | [], h =>
          rw [parseStr.eq_def] at h
          simp at h
        | e :: cs2, h =>
          rw [parseStr_escape] at h
          by_cases h3 : e = '"' ∨ e = '\\'
          · rw [if_pos h3] at h
            cases hp : parseStr cs2 with
            | none => rw [hp] at h; cases h
            | some p =>
              obtain ⟨s2, r2⟩ := p
              rw [hp] at h
              simp only [Option.some.injEq, Prod.mk.injEq] at h
              obtain ⟨hs, _⟩ := h
              rw [← hs, strOk, List.all_cons, Bool.and_eq_true]
              refine ⟨?_, parseStr_wf cs2 s2 r2 hp⟩
              rcases h3 with rfl | rfl <;> decide
          · rw [if_neg h3] at h; cases h
      · by_cases h4 : c.toNat < 32
        · rw [parseStr.eq_def] at h
          simp only [if_neg h1, if_neg h2, if_pos h4] at h
          cases h
        · rw [parseStr_plain cs h1 h2 h4] at h
          cases hp : parseStr cs with
          | none => rw [hp] at h; cases h
          | some p =>
            obtain ⟨s2, r2⟩ := p
            rw [hp] at h
            simp only [Option.some.injEq, Prod.mk.injEq] at h
            obtain ⟨hs, _⟩ := h
            rw [← hs, strOk, List.all_cons, Bool.and_eq_true]
            exact ⟨by simp; omega, parseStr_wf cs s2 r2 hp⟩

/-- Every value the scanner returns is well-formed: its strings carry no
control characters and its objects have distinct keys. -/
theorem parse_wf (fuel : Nat) :
    (∀ cs v rest, parseVal fuel cs = some (v, rest) → wfJ v = true) ∧
    (∀ cs l rest, parseElems fuel cs = some (l, rest) → wfL l = true) ∧
    (∀ cs ms rest, parseMembers fuel cs = some (ms, rest) → wfMRaw ms = true) := by
  induction fuel with
  | zero =>
    refine ⟨fun cs v rest h => ?_, fun cs l rest h => ?_, fun cs ms rest h => ?_⟩
    · rw [parseVal] at h; cases h
    · rw [parseElems] at h; cases h
    · rw [parseMembers] at h; cases h
  | succ fuel ih =>
    obtain ⟨ihV, ihE, ihM⟩ := ih
    refine ⟨?_, ?_, ?_⟩
    · -- values
      intro cs v rest h
      rw [parseVal] at h
      cases hsk : skipWs cs with
      | nil => rw [hsk] at h; cases h
      | cons c cs1 =>
        rw [hsk] at h
        simp only [] at h
        rw [parseValHead] at h
        by_cases h1 : c = 'n'
        · rw [if_pos h1] at h
          cases hm : expectChars ['u', 'l', 'l'] cs1 with
          | none => rw [hm] at h; cases h
          | some r =>
            rw [hm] at h
            simp only [Option.some.injEq, Prod.mk.injEq] at h
            rw [← h.1, wfJ]
        · rw [if_neg h1] at h
          by_cases h2 : c = 't'
          · rw [if_pos h2] at h
            cases hm : expectChars ['r', 'u', 'e'] cs1 with
            | none => rw [hm] at h; cases h
            | some r =>
              rw [hm] at h
              simp only [Option.some.injEq, Prod.mk.injEq] at h
              rw [← h.1, wfJ]
          · rw [if_neg h2] at h
            by_cases h3 : c = 'f'
            · rw [if_pos h3] at h
              cases hm : expectChars ['a', 'l', 's', 'e'] cs1 with
              | none => rw [hm] at h; cases h
              | some r =>
                rw [hm] at h
                simp only [Option.some.injEq, Prod.mk.injEq] at h
                rw [← h.1, wfJ]
            · rw [if_neg h3] at h
              by_cases h4 : c = '"'
              · rw [if_pos h4] at h
                cases hm : parseStr cs1 with
                | none => rw [hm] at h; cases h
                | some p =>
                  obtain ⟨s, r⟩ := p
                  rw [hm] at h
                  simp only [Option.some.injEq, Prod.mk.injEq] at h
                  rw [← h.1, wfJ]
                  exact parseStr_wf cs1 s r hm
              · rw [if_neg h4] at h
                by_cases h5 : c = '['
                · rw [if_pos h5, parseArrBody] at h
                  by_cases hbr : (skipWs cs1).head? = some ']'
                  · rw [if_pos hbr] at h
                    simp only [Option.some.injEq, Prod.mk.injEq] at h
                    rw [← h.1, wfJ, wfL]
                  · rw [if_neg hbr] at h
                    cases hm : parseElems fuel (skipWs cs1) with
                    | none => rw [hm] at h; cases h
                    | some p =>
                      obtain ⟨l, r⟩ := p
                      rw [hm] at h
                      simp only [Option.some.injEq, Prod.mk.injEq] at h
                      rw [← h.1, wfJ]
                      exact ihE _ l r hm
                · rw [if_neg h5] at h
                  by_cases h6 : c = '\x7b'
                  · rw [if_pos h6, parseObjBody] at h
                    by_cases hbr : (skipWs cs1).head? = some '\x7d'
                    · rw [if_pos hbr] at h
                      simp only [Option.some.injEq, Prod.mk.injEq] at h
                      rw [← h.1, wfJ, wfM]
                    · rw [if_neg hbr] at h
                      cases hm : parseMembers fuel (skipWs cs1) with
                      | none => rw [hm] at h; cases h
                      | some p =>
                        obtain ⟨ms, r⟩ := p
                        rw [hm] at h
                        simp only [Option.some.injEq, Prod.mk.injEq] at h
                        rw [← h.1, wfJ]
                        exact pyDict_raw_wf (ihM _ ms r hm)
                  · rw [if_neg h6] at h
                    by_cases h7 : c = '-'
                    · rw [if_pos h7] at h
                      cases hm : parseNum cs1 with
                      | none => rw [hm] at h; cases h
                      | some p =>
                        obtain ⟨nn, r⟩ := p
                        rw [hm] at h
                        simp only [Option.some.injEq, Prod.mk.injEq] at h
                        rw [← h.1, wfJ]
                    · rw [if_neg h7] at h
                      by_cases h8 : c.isDigit = true
                      · rw [if_pos h8] at h
                        cases hm : parseNum (c :: cs1) with
                        | none => rw [hm] at h; cases h
                        | some p =>
                          obtain ⟨nn, r⟩ := p
                          rw [hm] at h
                          simp only [Option.some.injEq, Prod.mk.injEq] at h
                          rw [← h.1, wfJ]
                      · rw [if_neg h8] at h
                        cases h
    · -- array elements
      intro cs l rest h
      rw [parseElems] at h
      cases hpv : parseVal fuel (skipWs cs) with
      | none => rw [hpv] at h; cases h
      | some p =>
        obtain ⟨v, cs1⟩ := p
        rw [hpv] at h
        simp only [] at h
        rw [parseElemsTail] at h
        by_cases hc : (skipWs cs1).head? = some ','
        · rw [if_pos hc] at h
          cases hm : parseElems fuel (skipWs cs1).tail with
          | none => rw [hm] at h; cases h
          | some p2 =>
            obtain ⟨vs, r⟩ := p2
            rw [hm] at h
            simp only [Option.some.injEq, Prod.mk.injEq] at h
            rw [← h.1, wfL, Bool.and_eq_true]
            exact ⟨ihV _ v cs1 hpv, ihE _ vs r hm⟩
        · rw [if_neg hc] at h
          by_cases hc2 : (skipWs cs1).head? = some ']'
          · rw [if_pos hc2] at h
            simp only [Option.some.injEq, Prod.mk.injEq] at h
            rw [← h.1, wfL, wfL, Bool.and_eq_true]
            exact ⟨ihV _ v cs1 hpv, rfl⟩
          · rw [if_neg hc2] at h
            cases h
    · -- object members
      intro cs ms rest h
      rw [parseMembers] at h
      cases hsk : skipWs cs with
      | nil => rw [hsk] at h; cases h
      | cons c cs1 =>
        rw [hsk] at h
        simp only [] at h
        rw [parseMembersHead] at h
        by_cases hq : c = '"'
        · rw [if_pos hq] at h
          cases hps : parseStr cs1 with
          | none => rw [hps] at h; cases h
          | some p =>
            obtain ⟨k, cs2⟩ := p
            rw [hps] at h
            simp only [] at h
            rw [parseMembersAfterKey.eq_def] at h
            cases hsk2 : skipWs cs2 with
            | nil => rw [hsk2] at h; cases h
            | cons c2 cs3 =>
              rw [hsk2] at h
              simp only [] at h
              by_cases hcol : c2 = ':'
              · rw [if_pos hcol] at h
                cases hpv : parseVal fuel cs3 with
                | none => rw [hpv] at h; cases h
                | some p2 =>
                  obtain ⟨v, cs4⟩ := p2
                  rw [hpv] at h
                  simp only [] at h
                  rw [parseMembersAfterVal] at h
                  by_cases hc : (skipWs cs4).head? = some ','
                  · rw [if_pos hc] at h
                    cases hm : parseMembers fuel (skipWs cs4).tail with
                    | none => rw [hm] at h; cases h
                    | some p3 =>
                      obtain ⟨ms2, r⟩ := p3
                      rw [hm] at h
                      simp only [Option.some.injEq, Prod.mk.injEq] at h
                      rw [← h.1, wfMRaw, Bool.and_eq_true, Bool.and_eq_true]
                      exact ⟨⟨parseStr_wf cs1 k cs2 hps, ihV _ v cs4 hpv⟩,
                        ihM _ ms2 r hm⟩
                  · rw [if_neg hc] at h
                    by_cases hc2 : (skipWs cs4).head? = some '\x7d'
                    · rw [if_pos hc2] at h
                      simp only [Option.some.injEq, Prod.mk.injEq] at h
                      rw [← h.1, wfMRaw, wfMRaw, Bool.and_eq_true,
                        Bool.and_eq_true]
                      exact ⟨⟨parseStr_wf cs1 k cs2 hps, ihV _ v cs4 hpv⟩, rfl⟩
                    · rw [if_neg hc2] at h
                      cases h
              · rw [if_neg hcol] at h
                cases h
        · rw [if_neg hq] at h
          cases h

/-- Every successful `json.loads` yields a well-formed value. -/
theorem jloads_wf {s : String} {v : Json} (h : jloads s = some v) :
    wfJ v = true := by
  rw [jloads] at h
  cases hp : parseVal (s.toList.length + 1) s.toList with
  | none => rw [hp] at h; cases h
  | some p =>
    obtain ⟨v2, rest⟩ := p
    rw [hp] at h
    simp only [] at h
    by_cases he : skipWs rest = []
    · rw [if_pos he] at h
      simp only [Option.some.injEq] at h
      rw [← h]
      exact (parse_wf (s.toList.length + 1)).1 s.toList v2 rest hp
    · rw [if_neg he] at h
      cases h

/-! The dump of a value is always long enough to pay for its fuel. -/

mutual

theorem fuelNeed_le_dump : ∀ (v : Json), fuelNeed v ≤ (dumpJ v).length + 1
  | .null => by simp [fuelNeed, dumpJ]
  | .bool b => by cases b <;> simp [fuelNeed, dumpJ]
  | .int n => by simp [fuelNeed]
  | .str s => by simp [fuelNeed]
  | .arr .nil => by simp [fuelNeed, fuelNeedL, dumpJ]
  | .arr (.cons v tl) => by
    have h := fuelNeedL_le_dump v tl
    simp only [fuelNeed, dumpJ, List.length_cons, List.length_append]
    omega
  | .obj .nil => by simp [fuelNeed, fuelNeedM, dumpJ]
  | .obj (.cons k v tl) => by
    have h := fuelNeedM_le_dump k v tl
    simp only [fuelNeed, dumpJ, List.length_cons, List.length_append]
    omega
termination_by v => sizeOf v

theorem fuelNeedL_le_dump : ∀ (v : Json) (tl : JsonList),
    fuelNeedL (.cons v tl) ≤ (dumpJ v).length + (dumpL tl).length + 2
  | v, .nil => by
    have hv := fuelNeed_le_dump v
    simp only [fuelNeedL, dumpL, List.length_nil]
    omega
  | v, .cons v2 tl2 => by
    have hv := fuelNeed_le_dump v
    have h2 := fuelNeedL_le_dump v2 tl2
    simp only [fuelNeedL] at h2 ⊢
    simp only [dumpL, List.length_cons, List.length_append]
    omega
termination_by v tl => sizeOf v + sizeOf tl

theorem fuelNeedM_le_dump : ∀ (k : List Char) (v : Json) (tl : JsonMembers),
    fuelNeedM (.cons k v tl) ≤ (dumpMember k v).length + (dumpM tl).length + 2
  | k, v, .nil => by
    have hv := fuelNeed_le_dump v
    simp only [fuelNeedM, dumpMember, dumpM, List.length_nil, List.length_cons,
      List.length_append]
    omega
  | k, v, .cons k2 v2 tl2 => by
    have hv := fuelNeed_le_dump v
    have hmem : (dumpJ v).length ≤ (dumpMember k v).length := by
      simp only [dumpMember, List.length_cons, List.length_append]
      omega
    have h2 := fuelNeedM_le_dump k2 v2 tl2
    simp only [fuelNeedM] at h2 ⊢
    simp only [dumpM, List.length_cons, List.length_append]
    omega
termination_by k v tl => sizeOf v + sizeOf tl

end

/-- C5 backbone: `json.loads` inverts `json.dumps` on every well-formed
value, so the canonical re-encoding is a fixed point of the transform. -/
theorem jloads_jdumps {v : Json} (h : wfJ v = true) : jloads (jdumps v) = some v := by
  rw [jdumps, jloads,
    show (String.mk (dumpJ v)).toList = dumpJ v from rfl]
  have hfuel : fuelNeed v ≤ (dumpJ v).length + 1 := fuelNeed_le_dump v
  have hmain := (parse_dump ((dumpJ v).length + 1)).1 v [] hfuel h rfl
  rw [List.append_nil] at hmain
  rw [hmain]
  rfl

/-! ### Paginated historical reads: `get_log_content` (logs.py 72-138)

The endpoint enumerates the log directory, 404s when it is empty or the
named file is absent, otherwise reads the file's raw lines with `open`
(for a `.zip` segment these are the archive's raw bytes read as text),
computes the page count, clamps the page number and returns the processed
slice. -/

structure HttpError where
  status : Nat
  detail : String
deriving DecidableEq, Repr

structure PageResult where
  logs : List String
  total : Nat
  total_pages : Nat
  current_page : Nat
  page_size : Nat
deriving DecidableEq, Repr

def get_log_content (dir : List DirFile) (filename : String)
    (page : Nat) (page_size : Nat) : Except HttpError PageResult :=
  let log_files := get_log_files dir
  if log_files.isEmpty then .error ⟨404, "no log directory"⟩
  else
    match dir.find? (fun f => f.name == filename) with
    | none => .error ⟨404, "log file " ++ filename ++ " does not exist"⟩
    | some file =>
      let all_logs := file.lines
      let total_logs := all_logs.length
      let total_pages := (total_logs + page_size - 1) / page_size
      let page1 := if page > total_pages then total_pages else page
      let page2 := if page1 < 1 then 1 else page1
      let start_idx := (page2 - 1) * page_size
      let end_idx := min (start_idx + page_size) total_logs
      let slice := (all_logs.drop start_idx).take (end_idx - start_idx)
      .ok ⟨slice.map processLine, total_logs, total_pages, page2, page_size⟩

/-- Model of `read_log_file` (logger.py 142-178): for a `.zip` segment, open the
archive, pick its first `.log` member and read that member's decompressed
lines; otherwise read the file directly; then slice without clamping. -/
def read_log_file (f : DirFile) (page : Nat) (page_size : Nat) :
    Nat × List String :=
  let content :=
    if strEndsWith f.name ".zip" then
      match f.zipInner.find? (fun m => strEndsWith m.1 ".log") with
      | none => none
      | some m => some m.2
    else some f.lines
  match content with
  | none => (0, [])
  | some lines =>
    let total_pages := (lines.length + page_size - 1) / page_size
    ((total_pages, (lines.drop ((page - 1) * page_size)).take page_size))

/-- C6: `get_log_content` fails with a 404 exactly when the directory has
no log segments or the named file is absent; whenever it fails at all the
failure is a 404, and otherwise it returns a full page result. -/
theorem get_log_content_notFound (dir : List DirFile) (filename : String)
    (page page_size : Nat) :
    (∃ e, get_log_content dir filename page page_size = .error e ∧
        e.status = 404) ↔
      (get_log_files dir = [] ∨
        dir.find? (fun f => f.name == filename) = none) := by
  by_cases hemp : (get_log_files dir).isEmpty
  · have hlhs : get_log_content dir filename page page_size =
        .error ⟨404, "no log directory"⟩ := by
      rw [get_log_content]
      simp [hemp]
    constructor
    · intro _
      exact Or.inl (List.isEmpty_iff.mp hemp)
    · intro _
      exact ⟨⟨404, "no log directory"⟩, hlhs, rfl⟩
  · cases hf : dir.find? (fun f => f.name == filename) with
    | none =>
      have hlhs : get_log_content dir filename page page_size =
          .error ⟨404, "log file " ++ filename ++ " does not exist"⟩ := by
        rw [get_log_content]
        simp only [if_neg hemp, hf]
      constructor
      · intro _
        exact Or.inr rfl
      · intro _
        exact ⟨⟨404, "log file " ++ filename ++ " does not exist"⟩, hlhs, rfl⟩
    | some file =>
      have hok : ∃ r, get_log_content dir filename page page_size = .ok r := by
        rw [get_log_content]
        simp only [if_neg hemp, hf]
        exact ⟨_, rfl⟩
      constructor
      · intro hex
        obtain ⟨e, he, _⟩ := hex
        obtain ⟨r, hr⟩ := hok
        rw [hr] at he
        cases he
      · intro hor
        rcases hor with hnil | hnone
        · exact absurd (List.isEmpty_iff.mpr hnil) hemp
        · cases hnone

/-- C4 as amended: for an existing, non-empty log file and a page size in
[1, 1000], the endpoint never fails on any page number, reports
`total_pages = ceil(total/page_size)`, and clamps the page into range
(down to `total_pages` when too large, up to 1 when below 1). -/
theorem get_log_content_clamps (dir : List DirFile) (filename : String)
    (page page_size : Nat) (file : DirFile)
    (hne : ¬(get_log_files dir).isEmpty)
    (hfind : dir.find? (fun f => f.name == filename) = some file)
    (hlines : file.lines ≠ [])
    (hps1 : 1 ≤ page_size) (hps2 : page_size ≤ 1000) :
    ∃ r, get_log_content dir filename page page_size = .ok r ∧
      r.total_pages = (file.lines.length + page_size - 1) / page_size ∧
      (page > r.total_pages → r.current_page = r.total_pages) ∧
      (page < 1 → r.current_page = 1) ∧
      (1 ≤ page → page ≤ r.total_pages → r.current_page = page) := by
  rw [get_log_content]
  simp only [if_neg hne, hfind]
  have htotal : 1 ≤ file.lines.length := by
    cases hl : file.lines with
    | nil => exact absurd hl hlines
    | cons a l => simp
  have htp : 1 ≤ (file.lines.length + page_size - 1) / page_size := by
    rw [Nat.le_div_iff_mul_le (by omega)]
    omega
  refine ⟨_, rfl, rfl, ?_, ?_, ?_⟩
  · intro hgt
    simp only [] at hgt ⊢
    split_ifs <;> omega
  · intro hlt
    simp only [] at hlt ⊢
    split_ifs <;> omega
  · intro h1 h2
    simp only [] at h2 ⊢
    split_ifs <;> omega

/-- Concrete run of the amended C4: one single-line file, page 99 of size
10 is clamped down to the last page. -/
theorem get_log_content_clamps_witness :
    ∃ r, get_log_content [⟨"app.log", 5, 1, ["x"], []⟩] "app.log" 99 10 =
        .ok r ∧
      r.total_pages = ((["x"] : List String).length + 10 - 1) / 10 ∧
      (99 > r.total_pages → r.current_page = r.total_pages) ∧
      ((99 : Nat) < 1 → r.current_page = 1) ∧
      (1 ≤ 99 → 99 ≤ r.total_pages → r.current_page = 99) :=
  get_log_content_clamps [⟨"app.log", 5, 1, ["x"], []⟩] "app.log" 99 10
    ⟨"app.log", 5, 1, ["x"], []⟩ (by decide) (by decide) (by decide)
    (by decide) (by decide)

/-- C4 fails as stated on the code: on an existing but empty log file with
`page = 2 > total_pages = 0`, the returned `current_page` is 1, not
`total_pages`. -/
theorem get_log_content_empty_cex :
    get_log_content [⟨"app.log", 0, 0, [], []⟩] "app.log" 2 100 =
        .ok ⟨[], 0, 0, 1, 100⟩ ∧
      (2 : Nat) > 0 ∧ (1 : Nat) ≠ 0 := by
  refine ⟨?_, by omega, by omega⟩
  rfl

/-- C9: on an existing log file with zero lines, any request with a valid
page and page size succeeds with `total_pages = 0`, no lines, and
`current_page = 1` — the one case where `current_page` exceeds
`total_pages`, because the downward clamp runs before the upward clamp. -/
theorem get_log_content_empty_file (dir : List DirFile) (filename : String)
    (page page_size : Nat) (file : DirFile)
    (hne : ¬(get_log_files dir).isEmpty)
    (hfind : dir.find? (fun f => f.name == filename) = some file)
    (hlines : file.lines = [])
    (hp : 1 ≤ page) (hps1 : 1 ≤ page_size) (hps2 : page_size ≤ 1000) :
    ∃ r, get_log_content dir filename page page_size = .ok r ∧
      r = ⟨[], 0, 0, 1, page_size⟩ ∧ r.current_page > r.total_pages := by
  rw [get_log_content]
  simp only [if_neg hne, hfind, hlines]
  have htp : ((0 : Nat) + page_size - 1) / page_size = 0 :=
    Nat.div_eq_of_lt (by omega)
  refine ⟨_, rfl, ?_, ?_⟩
  · simp only [List.length_nil, htp, if_pos (by omega : page > 0),
      if_pos (by omega : (0 : Nat) < 1)]
    simp [List.drop_nil, List.take_nil]
  · simp only [List.length_nil, htp, if_pos (by omega : page > 0),
      if_pos (by omega : (0 : Nat) < 1)]
    omega

/-- Concrete run of C9. -/
theorem get_log_content_empty_file_witness :
    ∃ r, get_log_content [⟨"app.log", 0, 0, [], []⟩] "app.log" 3 100 =
        .ok r ∧
      r = ⟨[], 0, 0, 1, 100⟩ ∧ r.current_page > r.total_pages :=
  get_log_content_empty_file [⟨"app.log", 0, 0, [], []⟩] "app.log" 3 100
    ⟨"app.log", 0, 0, [], []⟩ (by decide) (by decide) (by decide)
    (by decide) (by decide) (by decide)

/-- C5: every line of a returned page is `processLine` of a raw file line;
a line that parses as JSON is re-encoded canonically, and that canonical
re-encoding is a fixed point of the transform (re-paginating it returns it
unchanged); a line that does not parse is passed through stripped of
surrounding whitespace. -/
theorem processLine_spec (line : String) (v : Json) :
    (jloads line = some v → processLine line = jdumps v ∧
      processLine (jdumps v) = jdumps v) ∧
    (jloads line = none → processLine line = pyStrip line) ∧
    (∀ (dir : List DirFile) (filename : String) (page page_size : Nat)
        (r : PageResult) (s : String),
      get_log_content dir filename page page_size = .ok r → s ∈ r.logs →
      ∃ raw, s = processLine raw) := by
  refine ⟨?_, ?_, ?_⟩
  · intro h
    have hwf := jloads_wf h
    have hrt := jloads_jdumps hwf
    constructor
    · rw [processLine, h]
    · rw [processLine, hrt]
  · intro h
    rw [processLine, h]
  · intro dir filename page page_size r s hok hs
    rw [get_log_content] at hok
    split at hok
    · cases hok
    · split at hok
      · cases hok
      · simp only [Except.ok.injEq] at hok
        rw [← hok] at hs
        simp only [] at hs
        obtain ⟨raw, _, hraw⟩ := List.mem_map.mp hs
        exact ⟨raw, hraw.symm⟩

/-- Concrete runs of C5: the object line from the spec's example, its
canonical fixed point, a non-JSON line, and a returned page line. -/
theorem processLine_spec_witness :
    (processLine (String.mk ['\x7b', '"', 'a', '"', ':', '1', '\x7d']) =
        jdumps (.obj (.cons ['a'] (.int 1) .nil)) ∧
      processLine (jdumps (.obj (.cons ['a'] (.int 1) .nil))) =
        jdumps (.obj (.cons ['a'] (.int 1) .nil))) ∧
      processLine " not json " = pyStrip " not json " ∧
      (∃ raw, "not json" = processLine raw) :=
  ⟨(processLine_spec (String.mk ['\x7b', '"', 'a', '"', ':', '1', '\x7d'])
      (.obj (.cons ['a'] (.int 1) .nil))).1 rfl,
    (processLine_spec " not json " .null).2.1 rfl,
    (processLine_spec "" .null).2.2
      [⟨"app.log", 3, 9, [" not json "], []⟩] "app.log" 1 100
      ⟨["not json"], 1, 1, 1, 100⟩ "not json" rfl (by simp)⟩

/-- C7 fails on the code: `get_log_content` never delegates to
`read_log_file`; for a directory whose only segment is a zip archive it
paginates the file's raw bytes read as text, while `read_log_file` would
return the decompressed lines of the archived `.log` member. -/
theorem get_log_content_zip_raw_cex :
    get_log_content
        [⟨"app.log.zip", 7, 42, ["PKrawbytes"], [("app.log", ["hello"])]⟩]
        "app.log.zip" 1 100 =
      .ok ⟨["PKrawbytes"], 1, 1, 1, 100⟩ ∧
      read_log_file
        ⟨"app.log.zip", 7, 42, ["PKrawbytes"], [("app.log", ["hello"])]⟩
        1 100 = (1, ["hello"]) ∧
      (["PKrawbytes"] : List String) ≠ ["hello"] := by
  refine ⟨rfl, rfl, by decide⟩

end NixPyFram
